import Mathlib

/-!
Verification development for the Record Reconciliation and Batch
Partitioning Engine (DSLGen repository).

Shallow embedding of the core functions of:
  - traceid_processor.py : normalize_trace_id, unique_trace_ids_with_progress,
      chunk_first_proc_into_groups
  - csv_processor.py     : deduplicate_file_in_place
  - summator.py          : build_map, full_outer_join, is_nonempty,
      sort_joined_file (grouping core)
  - sql_generator.py     : the byte-budget batching loop of main

Python strings are modelled as Lean String, Python integers as Nat or Int,
spreadsheet cells (which may be None, a string, or a number) as the Cell
inductive, Python dicts as insertion-ordered association lists, and the
file-writing loops as pure functions returning the sequence of written
payloads.  The one unbounded loop (sql_generator's outer while) is embedded
with an explicit fuel parameter together with a Boolean that records whether
the loop actually reached its exit condition.
-/

/-- The set of characters removed by Python's regular expression \s (and
stripped by str.strip) on str input: ASCII whitespace, the file/group/record/
unit separators, NEL, NBSP, and the Unicode space characters. -/
def isPyWhitespace (c : Char) : Bool :=
  decide (c.toNat ∈ ([9, 10, 11, 12, 13, 28, 29, 30, 31, 32, 133, 160,
      0x1680, 0x2028, 0x2029, 0x202f, 0x205f, 0x3000] : List Nat)
    ∨ (0x2000 ≤ c.toNat ∧ c.toNat ≤ 0x200a))

/-- traceid_processor.normalize_trace_id: re.sub(r"\s+", "", s).
Replacing every maximal run of whitespace by the empty string deletes
exactly the whitespace characters, keeping all others in order. -/
def normalize_trace_id (s : String) : String :=
  String.mk (s.data.filter (fun c => !isPyWhitespace c))

/-- Python str.strip() on a character list: drop leading and trailing
whitespace. -/
def pyStripList (l : List Char) : List Char :=
  ((l.dropWhile isPyWhitespace).reverse.dropWhile isPyWhitespace).reverse

/-- Python str.strip() on strings (used as line.strip() by every reader). -/
def pyStrip (s : String) : String :=
  String.mk (pyStripList s.data)

theorem ntid_data (s : String) :
    (normalize_trace_id s).data = s.data.filter (fun c => !isPyWhitespace c) := rfl

theorem ntid_idem (s : String) :
    normalize_trace_id (normalize_trace_id s) = normalize_trace_id s := by
  unfold normalize_trace_id
  simp [List.filter_filter]

/-- C10: the normalizer is idempotent, its output is exactly the input with
every whitespace character removed and all other characters kept in their
original order, and the empty string normalizes to the empty string. -/
theorem c10_normalizer_idempotent :
    (∀ s, normalize_trace_id (normalize_trace_id s) = normalize_trace_id s)
    ∧ (∀ s, (normalize_trace_id s).data = s.data.filter (fun c => !isPyWhitespace c))
    ∧ (∀ s, ((normalize_trace_id s).data.all (fun c => !isPyWhitespace c)) = true)
    ∧ normalize_trace_id "" = "" := by
  refine ⟨ntid_idem, ntid_data, ?_, rfl⟩
  intro s
  simp [ntid_data, List.all_eq_true]

theorem filter_dropWhile_not (l : List Char) :
    (l.dropWhile isPyWhitespace).filter (fun c => !isPyWhitespace c)
      = l.filter (fun c => !isPyWhitespace c) := by
  conv_rhs => rw [← List.takeWhile_append_dropWhile (p := isPyWhitespace) (l := l)]
  rw [List.filter_append]
  have h : (l.takeWhile isPyWhitespace).filter (fun c => !isPyWhitespace c) = [] := by
    rw [List.filter_eq_nil_iff]
    intro a ha
    simp [List.mem_takeWhile_imp ha]
  rw [h, List.nil_append]

theorem filter_pyStripList (l : List Char) :
    (pyStripList l).filter (fun c => !isPyWhitespace c)
      = l.filter (fun c => !isPyWhitespace c) := by
  unfold pyStripList
  rw [List.filter_reverse, filter_dropWhile_not, List.filter_reverse,
    List.reverse_reverse, filter_dropWhile_not]

/-- Normalizing after stripping leading/trailing whitespace is the same as
normalizing directly (normalization already deletes all whitespace). -/
theorem ntid_pyStrip (s : String) :
    normalize_trace_id (pyStrip s) = normalize_trace_id s := by
  unfold normalize_trace_id pyStrip
  exact congrArg String.mk (filter_pyStripList s.data)

theorem string_mk_eq_empty_iff (l : List Char) : String.mk l = "" ↔ l = [] := by
  constructor
  · intro h
    have : (String.mk l).data = ("" : String).data := by rw [h]
    simpa using this
  · intro h; rw [h]

theorem pyStripList_eq_nil_iff (l : List Char) :
    pyStripList l = [] ↔ ∀ c ∈ l, isPyWhitespace c := by
  unfold pyStripList
  rw [List.reverse_eq_nil_iff, List.dropWhile_eq_nil_iff]
  constructor
  · intro h c hc
    by_cases hw : isPyWhitespace c
    · exact hw
    · exfalso
      have hmem : c ∈ l.dropWhile isPyWhitespace := by
        by_contra hnot
        have : c ∈ l.takeWhile isPyWhitespace := by
          rw [← List.takeWhile_append_dropWhile (p := isPyWhitespace) (l := l)] at hc
          rcases List.mem_append.mp hc with h1 | h2
          · exact h1
          · exact absurd h2 hnot
        exact hw (List.mem_takeWhile_imp this)
      exact hw (h c (List.mem_reverse.mpr hmem))
  · intro h c hc
    exact h c (List.dropWhile_sublist _ |>.subset (List.mem_reverse.mp hc))

/-- A token strips to the empty string exactly when it normalizes to the
empty string (both mean: every character is whitespace).  Hence the second
emptiness check in unique_trace_ids_with_progress can never fire. -/
theorem pyStrip_empty_iff_ntid_empty (s : String) :
    pyStrip s = "" ↔ normalize_trace_id s = "" := by
  unfold pyStrip normalize_trace_id
  rw [string_mk_eq_empty_iff, string_mk_eq_empty_iff, pyStripList_eq_nil_iff,
    List.filter_eq_nil_iff]
  simp

/-- Specification function: the subsequence of first occurrences of a list,
in input order. -/
def firstSeen : List String → List String
  | [] => []
  | x :: xs => x :: firstSeen (xs.filter (fun y => decide (y ≠ x)))
termination_by l => l.length
decreasing_by
  simp only [List.length_cons]
  exact Nat.lt_succ_of_le (List.length_filter_le _ _)

theorem mem_firstSeen (a : String) (l : List String) : a ∈ firstSeen l ↔ a ∈ l := by
  induction l using firstSeen.induct with
  | case1 => simp [firstSeen]
  | case2 x xs ih =>
    rw [firstSeen]
    by_cases hax : a = x
    · simp [hax]
    · rw [List.mem_cons, List.mem_cons, ih]
      simp [hax]

theorem firstSeen_nodup (l : List String) : (firstSeen l).Nodup := by
  induction l using firstSeen.induct with
  | case1 => simp [firstSeen]
  | case2 x xs ih =>
    rw [firstSeen]
    refine List.nodup_cons.mpr ⟨?_, ih⟩
    intro hmem
    have := (mem_firstSeen x _).mp hmem
    simp at this

/-- The deduplication kernel shared by both readers: process keys in order
against a growing seen set; new keys are appended to the seen set. -/
def fsAfter (seen : List String) : List String → List String
  | [] => []
  | x :: xs =>
    if x ∈ seen then fsAfter seen xs else x :: fsAfter (seen ++ [x]) xs

theorem fsAfter_eq (l : List String) :
    ∀ seen, fsAfter seen l = firstSeen (l.filter (fun y => decide (y ∉ seen))) := by
  induction l with
  | nil => intro seen; simp [fsAfter, firstSeen]
  | cons x xs ih =>
    intro seen
    rw [fsAfter.eq_def]
    by_cases hx : x ∈ seen
    · simp only [hx, if_true]
      rw [ih seen]
      congr 1
      simp [List.filter_cons, hx]
    · simp only [hx, if_false]
      rw [ih (seen ++ [x])]
      have hfil : xs.filter (fun y => decide (y ∉ seen ++ [x]))
          = (xs.filter (fun y => decide (y ∉ seen))).filter (fun y => decide (y ≠ x)) := by
        rw [List.filter_filter]
        apply List.filter_congr
        intro a _
        simp [List.mem_append, not_or, Bool.and_comm]
      rw [hfil]
      have hhead : (x :: xs).filter (fun y => decide (y ∉ seen))
          = x :: (xs.filter (fun y => decide (y ∉ seen))) := by
        simp [List.filter_cons, hx]
      rw [hhead, firstSeen]

/-- csv_processor.deduplicate_file_in_place, lines 74-90: strip each line,
skip empty, key on the stripped line via a seen set, append new keys to the
uniques list, count duplicates.  The Python set is modelled as a list used
only through membership.  The function result is (uniques written back to
the file, duplicate count); Python returns (duplicates, len(uniques)) and
writes the uniques, so the pair carries the same information. -/
def dedupAux : List String → List String → List String → Nat → List String × Nat
  | [], _, uniq, dups => (uniq, dups)
  | line :: rest, seen, uniq, dups =>
    if pyStrip line = "" then dedupAux rest seen uniq dups
    else if pyStrip line ∈ seen then dedupAux rest seen uniq (dups + 1)
    else dedupAux rest (seen ++ [pyStrip line]) (uniq ++ [pyStrip line]) dups

def deduplicate_file_in_place (lines : List String) : List String × Nat :=
  dedupAux lines [] [] 0

/-- The stripped non-empty lines, in order: the keys the csv deduplicator
actually compares. -/
def strippedKeys (lines : List String) : List String :=
  (lines.map pyStrip).filter (fun s => decide (s ≠ ""))

theorem strippedKeys_nil : strippedKeys [] = [] := rfl

theorem strippedKeys_cons (line : String) (rest : List String) :
    strippedKeys (line :: rest)
      = if pyStrip line = "" then strippedKeys rest
        else pyStrip line :: strippedKeys rest := by
  by_cases h : pyStrip line = "" <;> simp [strippedKeys, List.filter_cons, h]

theorem dedupAux_uniq (lines : List String) :
    ∀ seen uniq dups, (dedupAux lines seen uniq dups).1
      = uniq ++ fsAfter seen (strippedKeys lines) := by
  induction lines with
  | nil => intro seen uniq dups; simp [dedupAux, strippedKeys_nil, fsAfter]
  | cons line rest ih =>
    intro seen uniq dups
    rw [strippedKeys_cons]
    by_cases h0 : pyStrip line = ""
    · simp only [dedupAux, h0, if_true, if_pos]
      exact ih seen uniq dups
    · by_cases h1 : pyStrip line ∈ seen
      · simp only [dedupAux, h0, if_false, h1, if_true, if_neg h0, if_pos h1, fsAfter]
        exact ih seen uniq (dups + 1)
      · simp only [dedupAux, if_neg h0, if_neg h1, fsAfter]
        rw [ih (seen ++ [pyStrip line]) (uniq ++ [pyStrip line]) dups]
        simp [fsAfter, h1]

theorem dedupAux_count (lines : List String) :
    ∀ seen uniq dups, (dedupAux lines seen uniq dups).2
        + (dedupAux lines seen uniq dups).1.length
      = dups + uniq.length + (strippedKeys lines).length := by
  induction lines with
  | nil => intro seen uniq dups; simp [dedupAux, strippedKeys_nil]
  | cons line rest ih =>
    intro seen uniq dups
    rw [strippedKeys_cons]
    by_cases h0 : pyStrip line = ""
    · simp only [dedupAux, if_pos h0, if_true]
      exact ih seen uniq dups
    · by_cases h1 : pyStrip line ∈ seen
      · simp only [dedupAux, if_neg h0, if_pos h1, List.length_cons, if_false]
        rw [ih seen uniq (dups + 1)]
        omega
      · simp only [dedupAux, if_neg h0, if_neg h1, List.length_cons, if_false]
        rw [ih (seen ++ [pyStrip line]) (uniq ++ [pyStrip line]) dups]
        simp only [List.length_append, List.length_cons, List.length_nil]
        omega

/-- traceid_processor.unique_trace_ids_with_progress, lines 63-96: strip the
raw line, skip empty, normalize, skip empty (dead check), dedup by the
normalized key through a seen set, count duplicates; the function returns
tuple(seen) and the duplicate count.  Python iterates a set in unspecified
hash order; the model keeps the seen set as a list in insertion order but no
theorem below relies on that order, only on the set of elements. -/
def uniqueAux : List String → List String → Nat → List String × Nat
  | [], seen, dups => (seen, dups)
  | raw :: rest, seen, dups =>
    if pyStrip raw = "" then uniqueAux rest seen dups
    else if normalize_trace_id (pyStrip raw) = "" then uniqueAux rest seen dups
    else if normalize_trace_id (pyStrip raw) ∈ seen then uniqueAux rest seen (dups + 1)
    else uniqueAux rest (seen ++ [normalize_trace_id (pyStrip raw)]) dups

def unique_trace_ids_with_progress (tokens : List String) : List String × Nat :=
  uniqueAux tokens [] 0

/-- The sequence of normalized keys the traceid deduplicator actually
processes (strip, drop empties, normalize, drop empties). -/
def traceKeys (tokens : List String) : List String :=
  (((tokens.map pyStrip).filter (fun s => decide (s ≠ ""))).map
      normalize_trace_id).filter (fun s => decide (s ≠ ""))

theorem traceKeys_cons (raw : String) (rest : List String) :
    traceKeys (raw :: rest)
      = if pyStrip raw = "" then traceKeys rest
        else if normalize_trace_id (pyStrip raw) = "" then traceKeys rest
        else normalize_trace_id (pyStrip raw) :: traceKeys rest := by
  by_cases h0 : pyStrip raw = ""
  · simp [traceKeys, List.filter_cons, h0]
  · by_cases h1 : normalize_trace_id (pyStrip raw) = "" <;>
      simp [traceKeys, List.filter_cons, h0, h1]

/-- The processed keys are exactly the normalizations of the tokens whose
normalization is non-empty, in input order. -/
theorem traceKeys_eq (tokens : List String) :
    traceKeys tokens
      = (tokens.filter (fun t => decide (normalize_trace_id t ≠ ""))).map
          normalize_trace_id := by
  induction tokens with
  | nil => rfl
  | cons raw rest ih =>
    rw [traceKeys_cons]
    by_cases h0 : pyStrip raw = ""
    · have hn : normalize_trace_id raw = "" := (pyStrip_empty_iff_ntid_empty raw).mp h0
      simp [List.filter_cons, hn, h0, ih]
    · have hn : normalize_trace_id raw ≠ "" := by
        intro h; exact h0 ((pyStrip_empty_iff_ntid_empty raw).mpr h)
      have hs : normalize_trace_id (pyStrip raw) = normalize_trace_id raw :=
        ntid_pyStrip raw
      simp [List.filter_cons, h0, hs, hn, ih]

theorem uniqueAux_seen (tokens : List String) :
    ∀ seen dups, (uniqueAux tokens seen dups).1
      = seen ++ fsAfter seen (traceKeys tokens) := by
  induction tokens with
  | nil => intro seen dups; simp [uniqueAux, traceKeys, fsAfter]
  | cons raw rest ih =>
    intro seen dups
    rw [traceKeys_cons]
    by_cases h0 : pyStrip raw = ""
    · simp only [uniqueAux, if_pos h0, if_true]
      exact ih seen dups
    · by_cases h1 : normalize_trace_id (pyStrip raw) = ""
      · simp only [uniqueAux, if_neg h0, if_pos h1, if_false, if_true]
        exact ih seen dups
      · by_cases h2 : normalize_trace_id (pyStrip raw) ∈ seen
        · simp only [uniqueAux, if_neg h0, if_neg h1, if_pos h2, fsAfter]
          exact ih seen (dups + 1)
        · simp only [uniqueAux, if_neg h0, if_neg h1, if_neg h2, fsAfter]
          rw [ih (seen ++ [normalize_trace_id (pyStrip raw)]) dups]
          simp [fsAfter, h2]

theorem uniqueAux_count (tokens : List String) :
    ∀ seen dups, (uniqueAux tokens seen dups).2
        + (uniqueAux tokens seen dups).1.length
      = dups + seen.length + (traceKeys tokens).length := by
  induction tokens with
  | nil => intro seen dups; simp [uniqueAux, traceKeys]
  | cons raw rest ih =>
    intro seen dups
    rw [traceKeys_cons]
    by_cases h0 : pyStrip raw = ""
    · simp only [uniqueAux, if_pos h0, if_true]
      exact ih seen dups
    · by_cases h1 : normalize_trace_id (pyStrip raw) = ""
      · simp only [uniqueAux, if_neg h0, if_pos h1, if_false, if_true]
        exact ih seen dups
      · by_cases h2 : normalize_trace_id (pyStrip raw) ∈ seen
        · simp only [uniqueAux, if_neg h0, if_neg h1, if_pos h2, if_false,
            List.length_cons]
          rw [ih seen (dups + 1)]
          omega
        · simp only [uniqueAux, if_neg h0, if_neg h1, if_neg h2, if_false,
            List.length_cons]
          rw [ih (seen ++ [normalize_trace_id (pyStrip raw)]) dups]
          simp only [List.length_append, List.length_cons, List.length_nil]
          omega

theorem fsAfter_nil_seen (l : List String) : fsAfter [] l = firstSeen l := by
  rw [fsAfter_eq]
  congr 1
  simp

/-- C5 counterexample: two input tokens that differ only in interior
whitespace have the same NormalizedKey "ab", yet the csv deduplicator
(which keys on the stripped line, not on the NormalizedKey) emits both, so
the distinct non-empty NormalizedKey "ab" appears twice in the output. -/
theorem c5_dedup_counterexample :
    (deduplicate_file_in_place ["a b", "ab"]).1 = ["a b", "ab"]
    ∧ normalize_trace_id "a b" = normalize_trace_id "ab"
    ∧ ((deduplicate_file_in_place ["a b", "ab"]).1.map normalize_trace_id)
        = ["ab", "ab"]
    ∧ ¬ (((deduplicate_file_in_place ["a b", "ab"]).1.map
          normalize_trace_id).Nodup) := by
  refine ⟨?_, ?_, ?_, ?_⟩ <;> decide

/-- C5 (amended): the csv deduplicator keys on the whitespace-stripped line
(not the NormalizedKey) and outputs each distinct stripped non-empty line
exactly once in first-seen order, with duplicates + len(output) equal to the
number of lines that strip to a non-empty string; the traceid deduplicator
keys on the NormalizedKey and returns the set of distinct non-empty
NormalizedKeys (in unspecified Python set iteration order, so first-seen
order is not guaranteed there), with duplicates + len(output) equal to the
number of tokens with non-empty NormalizedKey. -/
theorem c5_dedup_amended :
    (∀ lines : List String,
        (deduplicate_file_in_place lines).1 = firstSeen (strippedKeys lines)
      ∧ (deduplicate_file_in_place lines).1.Nodup
      ∧ (deduplicate_file_in_place lines).2
            + (deduplicate_file_in_place lines).1.length
          = (strippedKeys lines).length)
    ∧ (∀ tokens : List String,
        (unique_trace_ids_with_progress tokens).1.Nodup
      ∧ (∀ k, k ∈ (unique_trace_ids_with_progress tokens).1
            ↔ k ≠ "" ∧ k ∈ tokens.map normalize_trace_id)
      ∧ (unique_trace_ids_with_progress tokens).2
            + (unique_trace_ids_with_progress tokens).1.length
          = (tokens.filter (fun t => decide (normalize_trace_id t ≠ ""))).length) := by
  constructor
  · intro lines
    have h1 : (deduplicate_file_in_place lines).1 = firstSeen (strippedKeys lines) := by
      unfold deduplicate_file_in_place
      rw [dedupAux_uniq, fsAfter_nil_seen]
      simp
    refine ⟨h1, ?_, ?_⟩
    · rw [h1]; exact firstSeen_nodup _
    · unfold deduplicate_file_in_place
      rw [dedupAux_count]
      simp
  · intro tokens
    have h1 : (unique_trace_ids_with_progress tokens).1
        = firstSeen (traceKeys tokens) := by
      unfold unique_trace_ids_with_progress
      rw [uniqueAux_seen, fsAfter_nil_seen]
      simp
    refine ⟨?_, ?_, ?_⟩
    · rw [h1]; exact firstSeen_nodup _
    · intro k
      rw [h1, mem_firstSeen, traceKeys_eq]
      constructor
      · intro hk
        rcases List.mem_map.mp hk with ⟨t, ht, rfl⟩
        have htk := (List.mem_filter.mp ht).2
        refine ⟨by simpa using htk, ?_⟩
        exact List.mem_map_of_mem _ (List.mem_filter.mp ht).1
      · rintro ⟨hne, hk⟩
        rcases List.mem_map.mp hk with ⟨t, ht, rfl⟩
        exact List.mem_map_of_mem _ (List.mem_filter.mpr ⟨ht, by simpa using hne⟩)
    · unfold unique_trace_ids_with_progress
      rw [uniqueAux_count]
      simp [traceKeys_eq]

/-- A spreadsheet cell as openpyxl hands it to summator.py: Python None, a
string, or a number.  Distinct constructors are distinct keys under Python
equality (a numeric cell never equals its string form). -/
inductive Cell : Type
  | none : Cell
  | str (s : String) : Cell
  | num (n : Int) : Cell
deriving DecidableEq, Repr

/-- A Python dict over Cell keys, modelled as an association list with
insertion-ordered keys; m[key] = values replaces the value of an existing
key in place and otherwise appends a new entry. -/
def dinsert (m : List (Cell × List Cell)) (k : Cell) (v : List Cell) :
    List (Cell × List Cell) :=
  match m with
  | [] => [(k, v)]
  | (k0, v0) :: rest =>
    if k0 = k then (k0, v) :: rest else (k0, v0) :: dinsert rest k v

/-- dict.get: the value stored under a key, if any. -/
def dlookup (m : List (Cell × List Cell)) (k : Cell) : Option (List Cell) :=
  match m with
  | [] => Option.none
  | (k0, v0) :: rest => if k0 = k then some v0 else dlookup rest k

theorem dlookup_dinsert (m : List (Cell × List Cell)) (k k1 : Cell)
    (v : List Cell) :
    dlookup (dinsert m k v) k1 = if k = k1 then some v else dlookup m k1 := by
  induction m with
  | nil => by_cases h : k = k1 <;> simp [dinsert, dlookup, h]
  | cons hd rest ih =>
    obtain ⟨k0, v0⟩ := hd
    by_cases h0 : k0 = k
    · subst h0
      by_cases h1 : k0 = k1 <;> simp [dinsert, dlookup, h1]
    · by_cases h1 : k0 = k1
      · subst h1
        have : ¬ (k = k0) := fun h => h0 h.symm
        simp [dinsert, dlookup, h0, this]
      · simp [dinsert, dlookup, h0, h1, ih]

theorem dinsert_keys (m : List (Cell × List Cell)) (k : Cell) (v : List Cell) :
    (dinsert m k v).map Prod.fst
      = if k ∈ m.map Prod.fst then m.map Prod.fst else m.map Prod.fst ++ [k] := by
  induction m with
  | nil => simp [dinsert]
  | cons hd rest ih =>
    obtain ⟨k0, v0⟩ := hd
    by_cases h0 : k0 = k
    · subst h0
      simp [dinsert]
    · have : ¬ (k = k0) := fun h => h0 h.symm
      by_cases hmem : k ∈ rest.map Prod.fst <;>
        simp [dinsert, h0, this, hmem, ih]

theorem dlookup_eq_none_iff (m : List (Cell × List Cell)) (k : Cell) :
    dlookup m k = Option.none ↔ k ∉ m.map Prod.fst := by
  induction m with
  | nil => simp [dlookup]
  | cons hd rest ih =>
    obtain ⟨k0, v0⟩ := hd
    by_cases h0 : k0 = k
    · subst h0
      simp [dlookup]
    · have : ¬ (k = k0) := fun h => h0 h.symm
      simp [dlookup, h0, this, ih]

/-- summator.build_map, lines 142-153: the key is the raw cell at col_index
(no normalization, no emptiness filtering; rows whose key column is out of
range are skipped); the stored value is the projection of the row onto
select_cols, with None for a missing or out-of-range column; a repeated key
overwrites (last write wins). -/
def projRow (selectCols : List (Option Int)) (r : List Cell) : List Cell :=
  selectCols.map (fun ci =>
    match ci with
    | some i => if 0 ≤ i ∧ i < (r.length : Int) then r.getD i.toNat Cell.none
                else Cell.none
    | Option.none => Cell.none)

/-- The key cell of a row, if col_index is in range. -/
def rowKey (colIndex : Int) (r : List Cell) : Option Cell :=
  if colIndex < 0 ∨ (r.length : Int) ≤ colIndex then Option.none
  else some (r.getD colIndex.toNat Cell.none)

def build_map (rows : List (List Cell)) (colIndex : Int)
    (selectCols : List (Option Int)) : List (Cell × List Cell) :=
  rows.foldl (fun m r =>
    match rowKey colIndex r with
    | Option.none => m
    | some k => dinsert m k (projRow selectCols r)) []

theorem build_map_lookup_aux (colIndex : Int) (selectCols : List (Option Int)) :
    ∀ (rows : List (List Cell)) (m : List (Cell × List Cell)) (k : Cell),
    dlookup (rows.foldl (fun m r =>
        match rowKey colIndex r with
        | Option.none => m
        | some k0 => dinsert m k0 (projRow selectCols r)) m) k
      = match rows.reverse.find? (fun r => decide (rowKey colIndex r = some k)) with
        | some r => some (projRow selectCols r)
        | Option.none => dlookup m k := by
  intro rows
  induction rows with
  | nil => intro m k; simp [List.find?]
  | cons r rest ih =>
    intro m k
    simp only [List.foldl_cons, List.reverse_cons, List.find?_append]
    rw [ih]
    cases hfind : rest.reverse.find? (fun r => decide (rowKey colIndex r = some k)) with
    | some r1 => simp
    | none =>
      simp only [Option.none_orElse]
      cases hkey : rowKey colIndex r with
      | none =>
        have : (fun r => decide (rowKey colIndex r = some k)) r = false := by
          simp [hkey]
        simp [List.find?, this, hkey]
      | some k0 =>
        by_cases hk : k0 = k
        · subst hk
          have : (fun r => decide (rowKey colIndex r = some k0)) r = true := by
            simp [hkey]
          simp [List.find?, this, hkey, dlookup_dinsert]
        · have : (fun r => decide (rowKey colIndex r = some k)) r = false := by
            simp [hkey, hk]
          simp [List.find?, this, hkey, dlookup_dinsert, hk]

/-- Last-write-wins: looking a key up in the built map returns the
projection of the LAST row whose (in-range) key cell equals that key. -/
theorem build_map_lookup (rows : List (List Cell)) (colIndex : Int)
    (selectCols : List (Option Int)) (k : Cell) :
    dlookup (build_map rows colIndex selectCols) k
      = (rows.reverse.find? (fun r => decide (rowKey colIndex r = some k))).map
          (projRow selectCols) := by
  unfold build_map
  rw [build_map_lookup_aux]
  cases hfind : rows.reverse.find? (fun r => decide (rowKey colIndex r = some k)) <;>
    simp [dlookup]

theorem build_map_keys_nodup (rows : List (List Cell)) (colIndex : Int)
    (selectCols : List (Option Int)) :
    ((build_map rows colIndex selectCols).map Prod.fst).Nodup := by
  unfold build_map
  suffices h : ∀ (m : List (Cell × List Cell)), (m.map Prod.fst).Nodup →
      ((rows.foldl (fun m r =>
        match rowKey colIndex r with
        | Option.none => m
        | some k0 => dinsert m k0 (projRow selectCols r)) m).map Prod.fst).Nodup by
    exact h [] (by simp)
  induction rows with
  | nil => intro m hm; simpa using hm
  | cons r rest ih =>
    intro m hm
    simp only [List.foldl_cons]
    cases hkey : rowKey colIndex r with
    | none => exact ih m hm
    | some k0 =>
      apply ih
      rw [dinsert_keys]
      by_cases hmem : k0 ∈ m.map Prod.fst
      · simpa [hmem] using hm
      · simp only [hmem, if_false]
        exact List.Nodup.append hm (by simp) (by simp [List.disjoint_singleton, hmem])

/-- summator.full_outer_join, lines 155-166: one output row per key in the
union of the two key sets; a side missing the key contributes
[None] * width.  Python iterates the key set in unspecified order; the model
enumerates the union as left keys followed by the right keys not on the
left, and no theorem relies on that particular order. -/
def unionKeys (left right : List (Cell × List Cell)) : List Cell :=
  left.map Prod.fst
    ++ (right.map Prod.fst).filter (fun k => decide (k ∉ left.map Prod.fst))

def joinRow (left right : List (Cell × List Cell)) (L R : Nat) (k : Cell) :
    List Cell :=
  ((dlookup left k).getD (List.replicate L Cell.none))
    ++ ((dlookup right k).getD (List.replicate R Cell.none))

def full_outer_join (left right : List (Cell × List Cell)) (L R : Nat) :
    List (List Cell) :=
  (unionKeys left right).map (joinRow left right L R)

theorem mem_unionKeys (left right : List (Cell × List Cell)) (k : Cell) :
    k ∈ unionKeys left right
      ↔ k ∈ left.map Prod.fst ∨ k ∈ right.map Prod.fst := by
  unfold unionKeys
  simp only [List.mem_append, List.mem_filter]
  by_cases h : k ∈ left.map Prod.fst <;> simp [h]

theorem unionKeys_nodup (left right : List (Cell × List Cell))
    (hl : (left.map Prod.fst).Nodup) (hr : (right.map Prod.fst).Nodup) :
    (unionKeys left right).Nodup := by
  unfold unionKeys
  refine List.Nodup.append hl (hr.filter _) ?_
  intro k hk1 hk2
  have h2 := (List.mem_filter.mp hk2).2
  simp only [decide_eq_true_eq] at h2
  exact h2 hk1

/-- C6: the full outer join emits exactly one JoinedRow per key in the union
of the two key sets, so len(output) = card(left keys ∪ right keys); a key
missing on one side gets an all-empty block of the fixed width of that side;
no key of either side is dropped. -/
theorem c6_full_outer_join_complete (left right : List (Cell × List Cell))
    (L R : Nat)
    (hl : (left.map Prod.fst).Nodup) (hr : (right.map Prod.fst).Nodup) :
    (full_outer_join left right L R).length
        = ((left.map Prod.fst).toFinset ∪ (right.map Prod.fst).toFinset).card
    ∧ full_outer_join left right L R
        = (unionKeys left right).map (joinRow left right L R)
    ∧ (unionKeys left right).Nodup
    ∧ (∀ k, k ∈ unionKeys left right
          ↔ k ∈ left.map Prod.fst ∨ k ∈ right.map Prod.fst)
    ∧ (∀ k, k ∉ left.map Prod.fst →
          joinRow left right L R k
            = List.replicate L Cell.none
                ++ ((dlookup right k).getD (List.replicate R Cell.none)))
    ∧ (∀ k, k ∉ right.map Prod.fst →
          joinRow left right L R k
            = ((dlookup left k).getD (List.replicate L Cell.none))
                ++ List.replicate R Cell.none) := by
  have hnd : (unionKeys left right).Nodup := unionKeys_nodup left right hl hr
  have hset : (unionKeys left right).toFinset
      = (left.map Prod.fst).toFinset ∪ (right.map Prod.fst).toFinset := by
    ext k
    simp [mem_unionKeys]
  refine ⟨?_, rfl, hnd, mem_unionKeys left right, ?_, ?_⟩
  · rw [← hset, List.toFinset_card_of_nodup hnd]
    simp [full_outer_join]
  · intro k hk
    unfold joinRow
    rw [(dlookup_eq_none_iff left k).mpr hk]
    rfl
  · intro k hk
    unfold joinRow
    rw [(dlookup_eq_none_iff right k).mpr hk]
    rfl

theorem c6_full_outer_join_witness :
    (full_outer_join [(Cell.str "A", [Cell.str "1"]), (Cell.str "B", [Cell.str "2"])]
        [(Cell.str "A", [Cell.str "x"])] 1 1).length = 2 := by
  have h := (c6_full_outer_join_complete
    [(Cell.str "A", [Cell.str "1"]), (Cell.str "B", [Cell.str "2"])]
    [(Cell.str "A", [Cell.str "x"])] 1 1 (by decide) (by decide)).1
  rw [h]
  decide

/-- C9: build_map indexes by the raw key cell: the lookup result is the
projection of the last row with that exact key (no normalization, no
emptiness filtering); rows with a None key are indexed under None and
collapse last-write-wins into one entry producing one joined row; keys
differing only in whitespace, or a numeric cell versus its string form, are
distinct entries. -/
theorem c9_build_map_raw_keys :
    (∀ (rows : List (List Cell)) (colIndex : Int)
        (selectCols : List (Option Int)) (k : Cell),
        dlookup (build_map rows colIndex selectCols) k
          = (rows.reverse.find? (fun r => decide (rowKey colIndex r = some k))).map
              (projRow selectCols))
    ∧ build_map [[Cell.none, Cell.str "a"], [Cell.none, Cell.str "b"]] 0 [some 1]
        = [(Cell.none, [Cell.str "b"])]
    ∧ (full_outer_join
        (build_map [[Cell.none, Cell.str "a"], [Cell.none, Cell.str "b"]] 0 [some 1])
        [] 1 0).length = 1
    ∧ (build_map [[Cell.str " x"], [Cell.str "x"]] 0 [some 0]).length = 2
    ∧ (build_map [[Cell.num 1], [Cell.str "1"]] 0 [some 0]).length = 2 := by
  refine ⟨build_map_lookup, by decide, by decide, by decide, by decide⟩

/-- summator.is_nonempty, lines 205-206: v is not None and str(v).strip()
is non-empty.  For a string cell this is strip-nonemptiness; for a numeric
cell str(n) is a decimal representation, never empty nor whitespace, so the
test is always true. -/
def is_nonempty (v : Cell) : Bool :=
  match v with
  | Cell.none => false
  | Cell.str s => !(pyStrip s == "")
  | Cell.num _ => true

/-- summator.sort_joined_file group_row, lines 231-244: classify a joined
row by emptiness of its EQ block row[0:eq_width] and Kibana block
row[eq_width:eq_width+kib_width]. -/
def group_row (eqW kibW : Nat) (row : List Cell) : Nat :=
  if (row.take eqW).all is_nonempty && ((row.drop eqW).take kibW).all is_nonempty
    then 0
  else if (row.take eqW).all is_nonempty
      && !(((row.drop eqW).take kibW).any is_nonempty) then 1
  else if ((row.drop eqW).take kibW).all is_nonempty
      && !((row.take eqW).any is_nonempty) then 2
  else 3

/-- The bucket pass of sort_joined_file, lines 246-249: append each row to
the bucket of its group, in input order. -/
def sortFold (eqW kibW : Nat) (data : List (List Cell)) :
    List (List Cell) × List (List Cell) × List (List Cell) × List (List Cell) :=
  data.foldl (fun acc r =>
    match group_row eqW kibW r with
    | 0 => (acc.1 ++ [r], acc.2.1, acc.2.2.1, acc.2.2.2)
    | 1 => (acc.1, acc.2.1 ++ [r], acc.2.2.1, acc.2.2.2)
    | 2 => (acc.1, acc.2.1, acc.2.2.1 ++ [r], acc.2.2.2)
    | _ => (acc.1, acc.2.1, acc.2.2.1, acc.2.2.2 ++ [r])) ([], [], [], [])

/-- sort_joined_file, line 250: concatenate the four buckets in ascending
group order. -/
def sort_joined_file (eqW kibW : Nat) (data : List (List Cell)) :
    List (List Cell) :=
  (sortFold eqW kibW data).1 ++ (sortFold eqW kibW data).2.1
    ++ (sortFold eqW kibW data).2.2.1 ++ (sortFold eqW kibW data).2.2.2

theorem group_row_cases (eqW kibW : Nat) (r : List Cell) :
    group_row eqW kibW r = 0 ∨ group_row eqW kibW r = 1
      ∨ group_row eqW kibW r = 2 ∨ group_row eqW kibW r = 3 := by
  unfold group_row
  split_ifs <;> simp

theorem sortFold_eq (eqW kibW : Nat) (data : List (List Cell)) :
    ∀ acc : List (List Cell) × List (List Cell) × List (List Cell) × List (List Cell),
    data.foldl (fun acc r =>
      match group_row eqW kibW r with
      | 0 => (acc.1 ++ [r], acc.2.1, acc.2.2.1, acc.2.2.2)
      | 1 => (acc.1, acc.2.1 ++ [r], acc.2.2.1, acc.2.2.2)
      | 2 => (acc.1, acc.2.1, acc.2.2.1 ++ [r], acc.2.2.2)
      | _ => (acc.1, acc.2.1, acc.2.2.1, acc.2.2.2 ++ [r])) acc
    = (acc.1 ++ data.filter (fun r => group_row eqW kibW r == 0),
       acc.2.1 ++ data.filter (fun r => group_row eqW kibW r == 1),
       acc.2.2.1 ++ data.filter (fun r => group_row eqW kibW r == 2),
       acc.2.2.2 ++ data.filter (fun r => group_row eqW kibW r == 3)) := by
  induction data with
  | nil => intro acc; simp
  | cons r rest ih =>
    intro acc
    simp only [List.foldl_cons]
    rcases group_row_cases eqW kibW r with h | h | h | h <;>
      rw [h] <;>
      simp only [ih] <;>
      simp [List.filter_cons, h]

theorem group_row_eq_zero_iff (eqW kibW : Nat) (r : List Cell) :
    group_row eqW kibW r = 0
      ↔ ((r.take eqW).all is_nonempty = true
          ∧ ((r.drop eqW).take kibW).all is_nonempty = true) := by
  unfold group_row
  split_ifs with h0 h1 h2
  · simpa [Bool.and_eq_true] using h0
  · constructor
    · intro h; exact absurd h (by decide)
    · rintro ⟨hA, hB⟩; exact absurd (by simp [hA, hB]) h0
  · constructor
    · intro h; exact absurd h (by decide)
    · rintro ⟨hA, hB⟩; exact absurd (by simp [hA, hB]) h0
  · constructor
    · intro h; exact absurd h (by decide)
    · rintro ⟨hA, hB⟩; exact absurd (by simp [hA, hB]) h0

theorem kb_block_ne_nil (eqW kibW : Nat) (r : List Cell)
    (hw : eqW + kibW ≤ r.length) (hk : 0 < kibW) :
    ((r.drop eqW).take kibW) ≠ [] := by
  apply List.ne_nil_of_length_pos
  simp only [List.length_take, List.length_drop]
  omega

theorem any_false_all_false (l : List Cell) (hne : l ≠ [])
    (h : l.any is_nonempty = false) : l.all is_nonempty = false := by
  cases l with
  | nil => exact absurd rfl hne
  | cons a t =>
    simp only [List.any_cons, Bool.or_eq_false_iff] at h
    simp [List.all_cons, h.1]

theorem group_row_eq_one_iff (eqW kibW : Nat) (r : List Cell)
    (hw : eqW + kibW ≤ r.length) (hk : 0 < kibW) :
    group_row eqW kibW r = 1
      ↔ ((r.take eqW).all is_nonempty = true
          ∧ ((r.drop eqW).take kibW).any is_nonempty = false) := by
  have hkb := kb_block_ne_nil eqW kibW r hw hk
  unfold group_row
  split_ifs with h0 h1 h2
  · simp only [Bool.and_eq_true] at h0
    constructor
    · intro h; exact absurd h (by decide)
    · rintro ⟨-, hC⟩
      exact absurd h0.2 (by simp [any_false_all_false _ hkb hC])
  · simp only [Bool.and_eq_true, Bool.not_eq_true'] at h1
    simp [h1.1, h1.2]
  · constructor
    · intro h; exact absurd h (by decide)
    · rintro ⟨hA, hC⟩
      exact absurd (by simp [hA, hC] : ((r.take eqW).all is_nonempty
        && !(((r.drop eqW).take kibW).any is_nonempty)) = true) h1
  · constructor
    · intro h; exact absurd h (by decide)
    · rintro ⟨hA, hC⟩
      exact absurd (by simp [hA, hC] : ((r.take eqW).all is_nonempty
        && !(((r.drop eqW).take kibW).any is_nonempty)) = true) h1

theorem eq_block_ne_nil (eqW kibW : Nat) (r : List Cell)
    (hw : eqW + kibW ≤ r.length) (he : 0 < eqW) :
    (r.take eqW) ≠ [] := by
  apply List.ne_nil_of_length_pos
  simp only [List.length_take]
  omega

theorem group_row_eq_two_iff (eqW kibW : Nat) (r : List Cell)
    (hw : eqW + kibW ≤ r.length) (he : 0 < eqW) :
    group_row eqW kibW r = 2
      ↔ (((r.drop eqW).take kibW).all is_nonempty = true
          ∧ (r.take eqW).any is_nonempty = false) := by
  have heq := eq_block_ne_nil eqW kibW r hw he
  unfold group_row
  split_ifs with h0 h1 h2
  · simp only [Bool.and_eq_true] at h0
    constructor
    · intro h; exact absurd h (by decide)
    · rintro ⟨-, hC⟩
      exact absurd h0.1 (by simp [any_false_all_false _ heq hC])
  · simp only [Bool.and_eq_true, Bool.not_eq_true'] at h1
    constructor
    · intro h; exact absurd h (by decide)
    · rintro ⟨-, hC⟩
      exact absurd h1.1 (by simp [any_false_all_false _ heq hC])
  · simp only [Bool.and_eq_true, Bool.not_eq_true'] at h2
    simp [h2.1, h2.2]
  · constructor
    · intro h; exact absurd h (by decide)
    · rintro ⟨hB, hC⟩
      exact absurd (by simp [hB, hC] : (((r.drop eqW).take kibW).all is_nonempty
        && !((r.take eqW).any is_nonempty)) = true) h2

theorem is_nonempty_str_iff (s : String) :
    is_nonempty (Cell.str s) = false ↔ ∀ c ∈ s.data, isPyWhitespace c := by
  simp only [is_nonempty, Bool.not_eq_false']
  rw [beq_iff_eq]
  have hps : pyStrip s = String.mk (pyStripList s.data) := rfl
  rw [hps, string_mk_eq_empty_iff, pyStripList_eq_nil_iff]

theorem pairwise_le_of_const (L : List Nat) (i : Nat) (h : ∀ x ∈ L, x = i) :
    L.Pairwise (· ≤ ·) := by
  induction L with
  | nil => exact List.Pairwise.nil
  | cons a t ih =>
    refine List.Pairwise.cons ?_ (ih (fun x hx => h x (List.mem_cons_of_mem _ hx)))
    intro b hb
    rw [h a (List.mem_cons_self _ _), h b (List.mem_cons_of_mem _ hb)]

theorem pairwise_le_groups (m0 m1 m2 m3 : List Nat)
    (h0 : ∀ x ∈ m0, x = 0) (h1 : ∀ x ∈ m1, x = 1)
    (h2 : ∀ x ∈ m2, x = 2) (h3 : ∀ x ∈ m3, x = 3) :
    (m0 ++ m1 ++ m2 ++ m3).Pairwise (· ≤ ·) := by
  rw [List.pairwise_append]
  refine ⟨?_, pairwise_le_of_const m3 3 h3, ?_⟩
  · rw [List.pairwise_append]
    refine ⟨?_, pairwise_le_of_const m2 2 h2, ?_⟩
    · rw [List.pairwise_append]
      refine ⟨pairwise_le_of_const m0 0 h0, pairwise_le_of_const m1 1 h1, ?_⟩
      intro a ha b hb
      rw [h0 a ha, h1 b hb]
      omega
    · intro a ha b hb
      rw [h2 b hb]
      rcases List.mem_append.mp ha with h | h
      · rw [h0 a h]; omega
      · rw [h1 a h]; omega
  · intro a ha b hb
    rw [h3 b hb]
    rcases List.mem_append.mp ha with h | h
    · rcases List.mem_append.mp h with hx | hx
      · rw [h0 a hx]; omega
      · rw [h1 a hx]; omega
    · rw [h2 a h]; omega

/-- C7: the sorter is a stable partition by CompletenessGroup: the output is
the group-0 rows (in input order), then group-1, group-2, group-3 rows, so
the group values appear in ascending order; group 0 means both blocks fully
non-empty; for rows of full width, group 1 means EQ block full and Kibana
block all-empty, group 2 means Kibana block full and EQ block all-empty;
a field is empty exactly when it is None or a whitespace-only string (a
numeric field is never empty). -/
theorem c7_sorter_stable_groups (eqW kibW : Nat) (data : List (List Cell)) :
    sort_joined_file eqW kibW data
        = data.filter (fun r => group_row eqW kibW r == 0)
          ++ data.filter (fun r => group_row eqW kibW r == 1)
          ++ data.filter (fun r => group_row eqW kibW r == 2)
          ++ data.filter (fun r => group_row eqW kibW r == 3)
    ∧ ((sort_joined_file eqW kibW data).map (group_row eqW kibW)).Pairwise (· ≤ ·)
    ∧ (∀ r, group_row eqW kibW r = 0
          ↔ ((r.take eqW).all is_nonempty = true
              ∧ ((r.drop eqW).take kibW).all is_nonempty = true))
    ∧ (∀ r, eqW + kibW ≤ r.length → 0 < kibW →
          (group_row eqW kibW r = 1
            ↔ ((r.take eqW).all is_nonempty = true
                ∧ ((r.drop eqW).take kibW).any is_nonempty = false)))
    ∧ (∀ r, eqW + kibW ≤ r.length → 0 < eqW →
          (group_row eqW kibW r = 2
            ↔ (((r.drop eqW).take kibW).all is_nonempty = true
                ∧ (r.take eqW).any is_nonempty = false)))
    ∧ (∀ s, is_nonempty (Cell.str s) = false ↔ ∀ c ∈ s.data, isPyWhitespace c)
    ∧ is_nonempty Cell.none = false
    ∧ (∀ n : Int, is_nonempty (Cell.num n) = true) := by
  have hdecomp : sort_joined_file eqW kibW data
      = data.filter (fun r => group_row eqW kibW r == 0)
        ++ data.filter (fun r => group_row eqW kibW r == 1)
        ++ data.filter (fun r => group_row eqW kibW r == 2)
        ++ data.filter (fun r => group_row eqW kibW r == 3) := by
    unfold sort_joined_file sortFold
    rw [sortFold_eq]
    simp
  have hmap : ∀ i : Nat, ∀ x ∈ (data.filter
      (fun r => group_row eqW kibW r == i)).map (group_row eqW kibW), x = i := by
    intro i x hx
    rcases List.mem_map.mp hx with ⟨r, hr, rfl⟩
    simpa using (List.mem_filter.mp hr).2
  refine ⟨hdecomp, ?_,
    group_row_eq_zero_iff eqW kibW,
    fun r hw hk => group_row_eq_one_iff eqW kibW r hw hk,
    fun r hw he => group_row_eq_two_iff eqW kibW r hw he,
    is_nonempty_str_iff, rfl, fun n => rfl⟩
  rw [hdecomp, List.map_append, List.map_append, List.map_append]
  exact pairwise_le_groups _ _ _ _ (hmap 0) (hmap 1) (hmap 2) (hmap 3)

theorem c7_sorter_witness :
    group_row 2 2 [Cell.str "a", Cell.str "b", Cell.none, Cell.str " "] = 1
    ∧ group_row 2 2 [Cell.none, Cell.str " ", Cell.str "c", Cell.str "d"] = 2
    ∧ sort_joined_file 2 2
        [[Cell.str "a", Cell.none, Cell.str "c", Cell.str "d"],
         [Cell.str "a", Cell.str "b", Cell.none, Cell.str " "],
         [Cell.str "a", Cell.str "b", Cell.str "c", Cell.str "d"],
         [Cell.none, Cell.str " ", Cell.str "c", Cell.str "d"]]
      = [[Cell.str "a", Cell.str "b", Cell.str "c", Cell.str "d"],
         [Cell.str "a", Cell.str "b", Cell.none, Cell.str " "],
         [Cell.none, Cell.str " ", Cell.str "c", Cell.str "d"],
         [Cell.str "a", Cell.none, Cell.str "c", Cell.str "d"]] := by
  refine ⟨?_, ?_, ?_⟩
  · exact ((c7_sorter_stable_groups 2 2 []).2.2.2.1
      [Cell.str "a", Cell.str "b", Cell.none, Cell.str " "]
      (by decide) (by decide)).mpr (by decide)
  · exact ((c7_sorter_stable_groups 2 2 []).2.2.2.2.1
      [Cell.none, Cell.str " ", Cell.str "c", Cell.str "d"]
      (by decide) (by decide)).mpr (by decide)
  · rw [(c7_sorter_stable_groups 2 2
      [[Cell.str "a", Cell.none, Cell.str "c", Cell.str "d"],
       [Cell.str "a", Cell.str "b", Cell.none, Cell.str " "],
       [Cell.str "a", Cell.str "b", Cell.str "c", Cell.str "d"],
       [Cell.none, Cell.str " ", Cell.str "c", Cell.str "d"]]).1]
    decide

/-- traceid_processor.chunk_first_proc_into_groups, lines 139-157, the line
loop: accumulate 5 physical lines per DSL object; when an object completes
and the current group already holds 3500 objects, flush the group (written
to the current dsl_group file) and start a new one with this object; flush
the remaining buffer at end of input.  A trailing fragment of fewer than 5
lines is discarded, as in the source. -/
def chunkAux : List String → List String → List String → Nat → List (List String)
  | [], _objLines, buffer, _cnt =>
    if buffer = [] then [] else [buffer]
  | line :: rest, objLines, buffer, cnt =>
    if (objLines ++ [line]).length = 5 then
      if 3500 ≤ cnt then
        (if buffer = [] then [] else [buffer])
          ++ chunkAux rest [] (objLines ++ [line]) 1
      else chunkAux rest [] (buffer ++ (objLines ++ [line])) (cnt + 1)
    else chunkAux rest (objLines ++ [line]) buffer cnt

/-- chunk_first_proc_into_groups, lines 114-159: groups_count is
ceil(count_objects / 3500) (zero when count_objects is 0, in which case the
function returns before reading the file); otherwise the line loop
distributes the file contents into the group files.  Result: (returned
groups_count, list of flushed group contents). -/
def chunk_first_proc_into_groups (countObjects : Nat) (lines : List String) :
    Nat × List (List String) :=
  if (if 0 < countObjects then (countObjects + 3499) / 3500 else 0) = 0 then (0, [])
  else ((countObjects + 3499) / 3500, chunkAux lines [] [] 0)

/-- The same loop at object granularity (one list element per completed
5-line object). -/
def objLoop : List (List String) → List String → Nat → List (List String)
  | [], buffer, _ => if buffer = [] then [] else [buffer]
  | o :: rest, buffer, cnt =>
    if 3500 ≤ cnt then
      (if buffer = [] then [] else [buffer]) ++ objLoop rest o 1
    else objLoop rest (buffer ++ o) (cnt + 1)

theorem length_eq_five (o : List String) (h : o.length = 5) :
    ∃ a b c d e, o = [a, b, c, d, e] := by
  rcases o with _ | ⟨a, o⟩
  · simp at h
  rcases o with _ | ⟨b, o⟩
  · simp at h
  rcases o with _ | ⟨c, o⟩
  · simp at h
  rcases o with _ | ⟨d, o⟩
  · simp at h
  rcases o with _ | ⟨e, o⟩
  · simp at h
  have ho : o = [] := by
    simp only [List.length_cons] at h
    exact List.length_eq_zero.mp (by omega)
  exact ⟨a, b, c, d, e, by rw [ho]⟩

theorem chunkAux_consume5 (a b c d e : String) (rest buffer : List String)
    (cnt : Nat) :
    chunkAux (a :: b :: c :: d :: e :: rest) [] buffer cnt
      = if 3500 ≤ cnt then
          (if buffer = [] then [] else [buffer])
            ++ chunkAux rest [] [a, b, c, d, e] 1
        else chunkAux rest [] (buffer ++ [a, b, c, d, e]) (cnt + 1) := by
  simp [chunkAux]

theorem chunkAux_objLoop (objs : List (List String)) :
    ∀ (buffer : List String) (cnt : Nat), (∀ o ∈ objs, o.length = 5) →
    chunkAux (objs.flatten) [] buffer cnt = objLoop objs buffer cnt := by
  induction objs with
  | nil =>
    intro buffer cnt _
    simp [chunkAux, objLoop]
  | cons o rest ih =>
    intro buffer cnt h
    have ho : o.length = 5 := h o (List.mem_cons_self _ _)
    obtain ⟨a, b, c, d, e, rfl⟩ := length_eq_five o ho
    have hrest : ∀ o ∈ rest, o.length = 5 :=
      fun o hm => h o (List.mem_cons_of_mem _ hm)
    show chunkAux (a :: b :: c :: d :: e :: rest.flatten) [] buffer cnt = _
    rw [chunkAux_consume5]
    by_cases hc : 3500 ≤ cnt
    · simp only [hc, if_true, objLoop]
      rw [ih [a, b, c, d, e] 1 hrest]
    · simp only [hc, if_false, objLoop]
      rw [ih (buffer ++ [a, b, c, d, e]) (cnt + 1) hrest]

theorem objLoop_ne_nil (objs : List (List String)) :
    ∀ (buffer : List String) (cnt : Nat), buffer ≠ [] →
      objLoop objs buffer cnt ≠ [] := by
  induction objs with
  | nil =>
    intro buffer cnt hb
    simp [objLoop, hb]
  | cons o rest ih =>
    intro buffer cnt hb
    unfold objLoop
    by_cases hc : 3500 ≤ cnt
    · simp only [hc, if_true, hb, if_neg hb]
      simp
    · simp only [hc, if_false]
      exact ih (buffer ++ o) (cnt + 1) (by simp [hb])

theorem objLoop_length (objs : List (List String)) :
    ∀ (buffer : List String) (cnt : Nat),
      (∀ o ∈ objs, o ≠ []) → cnt ≤ 3500 → (buffer = [] ↔ cnt = 0) →
      (objLoop objs buffer cnt).length = (cnt + objs.length + 3499) / 3500 := by
  induction objs with
  | nil =>
    intro buffer cnt _ hle hiff
    by_cases hb : buffer = []
    · have hc : cnt = 0 := hiff.mp hb
      simp [objLoop, hb, hc]
    · have hc : cnt ≠ 0 := fun h => hb (hiff.mpr h)
      have h1 : (cnt + 0 + 3499) / 3500 = 1 := by
        apply Nat.div_eq_of_lt_le <;> omega
      have h2 : (cnt + 3499) / 3500 = 1 := by
        apply Nat.div_eq_of_lt_le <;> omega
      simp [objLoop, hb, h1, h2]
  | cons o rest ih =>
    intro buffer cnt h hle hiff
    have ho : o ≠ [] := h o (List.mem_cons_self _ _)
    have hrest : ∀ x ∈ rest, x ≠ [] := fun x hm => h x (List.mem_cons_of_mem _ hm)
    unfold objLoop
    by_cases hc : 3500 ≤ cnt
    · have hcnt : cnt = 3500 := by omega
      have hb : buffer ≠ [] := fun hbe => by
        have := hiff.mp hbe
        omega
      simp only [hc, if_true, if_neg hb, List.length_append, List.length_cons,
        List.length_nil]
      rw [ih o 1 hrest (by omega) (by simp [ho])]
      subst hcnt
      have e1 : (1 : Nat) + rest.length + 3499 = rest.length + 3500 := by omega
      have e2 : 3500 + (rest.length + 1) + 3499 = rest.length + 3500 + 3500 := by
        omega
      rw [e1, e2, Nat.add_div_right _ (by omega), Nat.add_div_right _ (by omega),
        Nat.add_div_right _ (by omega)]
      omega
    · simp only [hc, if_false]
      rw [ih (buffer ++ o) (cnt + 1) hrest (by omega) (by simp [ho])]
      congr 1
      simp only [List.length_cons]
      omega

theorem objLoop_flat (objs : List (List String)) :
    ∀ (buffer : List String) (cnt : Nat),
      (objLoop objs buffer cnt).flatten = buffer ++ objs.flatten := by
  induction objs with
  | nil =>
    intro buffer cnt
    by_cases hb : buffer = [] <;> simp [objLoop, hb]
  | cons o rest ih =>
    intro buffer cnt
    unfold objLoop
    by_cases hc : 3500 ≤ cnt
    · by_cases hb : buffer = [] <;>
        simp [hc, hb, ih o 1]
    · simp [hc, ih (buffer ++ o) (cnt + 1)]

theorem objLoop_sizes (objs : List (List String)) :
    ∀ (buffer : List String) (cnt : Nat),
      (∀ o ∈ objs, o.length = 5) → buffer.length = 5 * cnt → cnt ≤ 3500 →
      ∀ g ∈ (objLoop objs buffer cnt).dropLast, g.length = 5 * 3500 := by
  induction objs with
  | nil =>
    intro buffer cnt _ _ _ g hg
    by_cases hb : buffer = [] <;> simp [objLoop, hb] at hg
  | cons o rest ih =>
    intro buffer cnt h hbl hle g hg
    have ho : o.length = 5 := h o (List.mem_cons_self _ _)
    have hone : o ≠ [] := by
      intro he
      rw [he] at ho
      simp at ho
    have hrest : ∀ x ∈ rest, x.length = 5 := fun x hm => h x (List.mem_cons_of_mem _ hm)
    unfold objLoop at hg
    by_cases hc : 3500 ≤ cnt
    · have hcnt : cnt = 3500 := by omega
      have hb : buffer ≠ [] := by
        intro hbe
        rw [hbe] at hbl
        simp at hbl
        omega
      simp only [hc, if_true, if_neg hb] at hg
      rw [List.dropLast_append_of_ne_nil _ (objLoop_ne_nil rest o 1 hone)] at hg
      rcases List.mem_append.mp hg with hg1 | hg2
      · have : g = buffer := by simpa using hg1
        rw [this, hbl, hcnt]
      · exact ih o 1 hrest (by simp [ho]) (by omega) g hg2
    · simp only [hc, if_false] at hg
      exact ih (buffer ++ o) (cnt + 1) hrest
        (by simp [hbl, ho]; omega) (by omega) g hg

/-- C8: in count-budget mode the chunker emits exactly
ceil(count / 3500) groups; every group except possibly the last holds
exactly 3500 objects (5 lines each, hence 17500 lines); nothing is lost or
reordered (the concatenation of the groups is the input line sequence); zero
objects give zero groups. -/
theorem c8_count_chunker (objs : List (List String))
    (hlen : ∀ o ∈ objs, o.length = 5) :
    (chunk_first_proc_into_groups objs.length objs.flatten).1
        = (objs.length + 3499) / 3500
    ∧ (chunk_first_proc_into_groups objs.length objs.flatten).2.length
        = (objs.length + 3499) / 3500
    ∧ (∀ g ∈ (chunk_first_proc_into_groups objs.length objs.flatten).2.dropLast,
          g.length = 5 * 3500)
    ∧ (chunk_first_proc_into_groups objs.length objs.flatten).2.flatten
        = objs.flatten
    ∧ (objs.length = 0
        → chunk_first_proc_into_groups objs.length objs.flatten = (0, [])) := by
  have hne : ∀ o ∈ objs, o ≠ [] := by
    intro o hm he
    have := hlen o hm
    rw [he] at this
    simp at this
  by_cases hz : objs.length = 0
  · have hobjs : objs = [] := List.length_eq_zero.mp hz
    subst hobjs
    refine ⟨rfl, rfl, by simp [chunk_first_proc_into_groups], ?_, fun _ => rfl⟩
    simp [chunk_first_proc_into_groups]
  · have hpos : 0 < objs.length := Nat.pos_of_ne_zero hz
    have hgc : (objs.length + 3499) / 3500 ≠ 0 := by
      intro hdiv
      have := Nat.div_eq_zero_iff (by omega : 0 < 3500) |>.mp hdiv
      omega
    have hres : chunk_first_proc_into_groups objs.length objs.flatten
        = ((objs.length + 3499) / 3500, chunkAux objs.flatten [] [] 0) := by
      unfold chunk_first_proc_into_groups
      simp [hpos, hgc]
    rw [hres]
    rw [chunkAux_objLoop objs [] 0 hlen]
    refine ⟨rfl, ?_, ?_, ?_, fun h => absurd h hz⟩
    · rw [objLoop_length objs [] 0 hne (by omega) (by simp)]
      congr 1
      omega
    · exact objLoop_sizes objs [] 0 hlen (by simp) (by omega)
    · rw [objLoop_flat]
      simp

theorem c8_count_chunker_witness :
    (chunk_first_proc_into_groups
        (List.replicate 7500 (List.replicate 5 "x")).length
        (List.replicate 7500 (List.replicate 5 "x")).flatten).1 = 3
    ∧ (chunk_first_proc_into_groups
        (List.replicate 7500 (List.replicate 5 "x")).length
        (List.replicate 7500 (List.replicate 5 "x")).flatten).2.length = 3 := by
  have hlen : ∀ o ∈ List.replicate 7500 (List.replicate 5 "x"), o.length = 5 := by
    intro o ho
    rw [List.eq_of_mem_replicate ho]
    simp
  have h := c8_count_chunker (List.replicate 7500 (List.replicate 5 "x")) hlen
  constructor
  · rw [h.1, List.length_replicate]
  · rw [h.2.1, List.length_replicate]

/-- sql_generator.main limits, lines 148-150. -/
def MAX_TOTAL : Nat := 800

def RESERVED : Nat := 300

def MAX_BODY : Nat := MAX_TOTAL - RESERVED

/-- Python str.join with a separator. -/
def pyJoin (sep : String) : List String → String
  | [] => ""
  | [x] => x
  | x :: y :: rest => x ++ sep ++ pyJoin sep (y :: rest)

/-- The length bookkeeping of the inner loop: item lengths plus 2 bytes of
", " separator between consecutive items. -/
def joinLen : List String → Nat
  | [] => 0
  | [x] => x.length
  | x :: y :: rest => x.length + 2 + joinLen (y :: rest)

theorem pyJoin_comma_length (l : List String) :
    (pyJoin ", " l).length = joinLen l := by
  induction l using joinLen.induct with
  | case1 => rfl
  | case2 x => rfl
  | case3 x y rest ih =>
    show (x ++ ", " ++ pyJoin ", " (y :: rest)).length = x.length + 2 + joinLen (y :: rest)
    rw [String.length_append, String.length_append, ih,
      show (", ").length = 2 from rfl]

theorem joinLen_concat (l : List String) (c : String) :
    joinLen (l ++ [c]) = joinLen l + (if l = [] then c.length else c.length + 2) := by
  induction l using joinLen.induct with
  | case1 => simp [joinLen]
  | case2 x =>
    simp [joinLen]
    omega
  | case3 x y rest ih =>
    show joinLen (x :: ((y :: rest) ++ [c])) = _
    have h1 : joinLen (x :: ((y :: rest) ++ [c]))
        = x.length + 2 + joinLen ((y :: rest) ++ [c]) := by
      cases rest <;> rfl
    rw [h1, ih]
    simp [joinLen]
    omega

/-- The inner while of sql_generator.main, lines 176-184: greedily take
items while the running length (item plus 2 separator bytes when the group
is not empty) stays within MAX_BODY; stop at the first item that does not
fit.  Returns (current_items, current_len, unconsumed remainder). -/
def fillGroupAux : List String → List String → Nat → List String × Nat × List String
  | [], cur, curLen => (cur, curLen, [])
  | c :: rest, cur, curLen =>
    if curLen + (if cur = [] then c.length else c.length + 2) ≤ MAX_BODY then
      fillGroupAux rest (cur ++ [c]) (curLen + (if cur = [] then c.length else c.length + 2))
    else (cur, curLen, c :: rest)

/-- Body assembly, line 186: values joined by ", " plus a newline, or empty. -/
def renderBody (items : List String) : String :=
  if items = [] then "" else pyJoin ", " items ++ "\n"

/-- Lines 186-192: assemble prefix + body + postfix; if the content exceeds
MAX_TOTAL and the group is non-empty, pop the last item and re-assemble
(without re-checking, and without putting the popped item back into the
unconsumed input).  Returns (final items, written content). -/
def emitGroup (pfx post : String) (items : List String) : List String × String :=
  if (pfx ++ renderBody items ++ post).length > MAX_TOTAL ∧ items ≠ [] then
    (items.dropLast, pfx ++ renderBody items.dropLast ++ post)
  else (items, pfx ++ renderBody items ++ post)

/-- The outer while of sql_generator.main, lines 171-197, with explicit
fuel: returns the emitted (group items, file content) pairs and whether the
loop reached its exit condition (used = total) within the given fuel. -/
def sqlLoop (pfx post : String) : Nat → List String → List (List String × String) × Bool
  | _, [] => ([], true)
  | 0, _ :: _ => ([], false)
  | fuel + 1, c :: rest =>
    ((emitGroup pfx post (fillGroupAux (c :: rest) [] 0).1)
        :: (sqlLoop pfx post fuel (fillGroupAux (c :: rest) [] 0).2.2).1,
      (sqlLoop pfx post fuel (fillGroupAux (c :: rest) [] 0).2.2).2)

theorem fillGroupAux_inv (rem : List String) :
    ∀ (cur : List String) (curLen : Nat),
      joinLen cur = curLen → curLen ≤ MAX_BODY →
      joinLen (fillGroupAux rem cur curLen).1 = (fillGroupAux rem cur curLen).2.1
      ∧ (fillGroupAux rem cur curLen).2.1 ≤ MAX_BODY := by
  induction rem with
  | nil => intro cur curLen h1 h2; exact ⟨h1, h2⟩
  | cons c rest ih =>
    intro cur curLen h1 h2
    by_cases hfit : curLen + (if cur = [] then c.length else c.length + 2) ≤ MAX_BODY
    · simp only [fillGroupAux, hfit, if_true]
      apply ih
      · rw [joinLen_concat, h1]
      · exact hfit
    · simp only [fillGroupAux, hfit, if_false]
      exact ⟨h1, h2⟩

theorem renderBody_length (items : List String) :
    (renderBody items).length = if items = [] then 0 else joinLen items + 1 := by
  by_cases h : items = []
  · simp [renderBody, h]
  · unfold renderBody
    rw [if_neg h, if_neg h, String.length_append, pyJoin_comma_length,
      show ("\n").length = 1 from rfl]

theorem emitGroup_le (pfx post : String) (items : List String)
    (hpq : pfx.length + post.length ≤ RESERVED) (hj : joinLen items ≤ MAX_BODY) :
    (emitGroup pfx post items).2.length ≤ MAX_TOTAL := by
  unfold emitGroup
  by_cases hpop : (pfx ++ renderBody items ++ post).length > MAX_TOTAL ∧ items ≠ []
  · rw [if_pos hpop]
    show (pfx ++ renderBody items.dropLast ++ post).length ≤ MAX_TOTAL
    rw [String.length_append, String.length_append, renderBody_length]
    by_cases hd : items.dropLast = []
    · rw [if_pos hd]
      unfold RESERVED at hpq
      unfold MAX_TOTAL
      omega
    · rw [if_neg hd]
      have hsplit : items.dropLast ++ [items.getLast hpop.2] = items :=
        List.dropLast_append_getLast hpop.2
      have hlen : joinLen items
          = joinLen items.dropLast + ((items.getLast hpop.2).length + 2) := by
        conv_lhs => rw [← hsplit]
        rw [joinLen_concat]
        simp [hd]
      unfold MAX_BODY MAX_TOTAL RESERVED at hj
      unfold RESERVED at hpq
      unfold MAX_TOTAL
      omega
  · rw [if_neg hpop]
    show (pfx ++ renderBody items ++ post).length ≤ MAX_TOTAL
    by_cases hle : (pfx ++ renderBody items ++ post).length ≤ MAX_TOTAL
    · exact hle
    · have hitems : items = [] := by
        by_contra hne
        exact hpop ⟨by omega, hne⟩
      rw [String.length_append, String.length_append, renderBody_length,
        hitems]
      rw [if_pos rfl]
      unfold RESERVED at hpq
      unfold MAX_TOTAL
      omega

theorem sqlLoop_succ_cons (pfx post c : String) (rest : List String) (n : Nat) :
    sqlLoop pfx post (n + 1) (c :: rest)
      = ((emitGroup pfx post (fillGroupAux (c :: rest) [] 0).1)
          :: (sqlLoop pfx post n (fillGroupAux (c :: rest) [] 0).2.2).1,
        (sqlLoop pfx post n (fillGroupAux (c :: rest) [] 0).2.2).2) := rfl

/-- C4 (amended): provided the prefix and postfix together fit in the
reserved byte allowance (len(prefix) + len(postfix) <= RESERVED = 300, as
intended for the MAX_TOTAL = 800 budget), every file content emitted by the
byte-budget loop, over any input and any number of iterations, has length
at most MAX_TOTAL. -/
theorem c4_partitioner_bound_amended (pfx post : String)
    (hpq : pfx.length + post.length ≤ RESERVED) :
    ∀ (fuel : Nat) (items : List String),
      ((sqlLoop pfx post fuel items).1.all
        (fun g => decide (g.2.length ≤ MAX_TOTAL))) = true := by
  intro fuel
  induction fuel with
  | zero =>
    intro items
    cases items <;> simp [sqlLoop]
  | succ n ih =>
    intro items
    cases items with
    | nil => simp [sqlLoop]
    | cons c rest =>
      rw [sqlLoop_succ_cons]
      have hinv := fillGroupAux_inv (c :: rest) [] 0 rfl
        (by unfold MAX_BODY MAX_TOTAL RESERVED; omega)
      have hle := emitGroup_le pfx post (fillGroupAux (c :: rest) [] 0).1 hpq
        (by rw [hinv.1]; exact hinv.2)
      rw [List.all_cons, Bool.and_eq_true]
      exact ⟨decide_eq_true hle, ih _⟩

theorem c4_partitioner_bound_witness :
    ((sqlLoop "(" ")" 1 ["ab"]).1.all
        (fun g => decide (g.2.length ≤ MAX_TOTAL))) = true :=
  c4_partitioner_bound_amended "(" ")" (by decide) 1 ["ab"]

/-- sql_generator.build_sql_postfix, line 90. -/
def sqlPost : String := ")\n;\n"

/-- A 700-byte prefix, as an operator can configure through the
prefix_template of sql_generator.ini. -/
def bigPfx : String := String.mk (List.replicate 700 'P')

def itemC : String := String.mk (List.replicate 200 'c')

def itemD : String := String.mk (List.replicate 200 'd')

set_option maxRecDepth 40000 in
/-- C4 counterexample: with a 700-byte prefix (allowed by the INI template
mechanism; the claim quantifies over every prefix/suffix template) and two
200-byte items, the loop terminates and emits a single batch of 905 bytes,
exceeding maxTotalBytes = 800: the single pop is not re-checked. -/
theorem c4_partitioner_bound_counterexample :
    (sqlLoop bigPfx sqlPost 2 [itemC, itemD]).2 = true
    ∧ ((sqlLoop bigPfx sqlPost 2 [itemC, itemD]).1.map
        (fun g => g.2.length)) = [905]
    ∧ ¬ (905 ≤ MAX_TOTAL) := by
  refine ⟨by decide, by decide, by decide⟩

def pfxC1 : String := String.mk (List.replicate 700 'Q')

def itemA : String := String.mk (List.replicate 50 'a')

def itemB : String := String.mk (List.replicate 50 'b')

set_option maxRecDepth 40000 in
/-- C1 evidence: two 50-byte items, each of which fits the budget on its
own (a single-item batch is 755 <= 800 bytes), fed to the loop with a
700-byte prefix.  The overflow re-check pops itemB out of the group but the
consumed-input index is not rolled back, so the run terminates having
emitted exactly one batch whose item list is [itemA]: itemB appears in zero
batches instead of being reconsidered as the first item of the next group. -/
theorem c1_dropped_item_lost :
    (sqlLoop pfxC1 sqlPost 2 [itemA, itemB]).2 = true
    ∧ ((sqlLoop pfxC1 sqlPost 2 [itemA, itemB]).1.map Prod.fst) = [[itemA]]
    ∧ ((sqlLoop pfxC1 sqlPost 2 [itemA, itemB]).1.countP
        (fun g => decide (itemB ∈ g.1))) = 0
    ∧ itemA.length ≤ MAX_BODY ∧ itemB.length ≤ MAX_BODY
    ∧ (pfxC1 ++ renderBody [itemA] ++ sqlPost).length ≤ MAX_TOTAL
    ∧ (pfxC1 ++ renderBody [itemB] ++ sqlPost).length ≤ MAX_TOTAL := by
  refine ⟨by decide, by decide, by decide, by decide, by decide, by decide,
    by decide⟩

/-- An item of 501 bytes: longer than MAX_BODY = 500, so it can never pass
the inner-loop guard. -/
def oversizedItem : String := String.mk (List.replicate 501 'A')

set_option maxRecDepth 40000 in
theorem oversizedItem_length : oversizedItem.length = 501 := by decide

theorem emitGroup_nil_items (pfx post : String) :
    emitGroup pfx post [] = ([], pfx ++ renderBody [] ++ post) := by
  unfold emitGroup
  rw [if_neg]
  rintro ⟨-, h⟩
  exact h rfl

theorem fillGroupAux_oversized :
    fillGroupAux [oversizedItem] [] 0 = ([], 0, [oversizedItem]) := by
  unfold fillGroupAux
  rw [if_neg]
  rw [if_pos rfl, oversizedItem_length]
  unfold MAX_BODY MAX_TOTAL RESERVED
  omega

/-- C2 evidence: on an input containing only an item that cannot fit any
group, the loop never reaches its exit condition (no fuel suffices), and
every batch it emits along the way has an empty item list; no ValueTooLarge
error exists anywhere in the code, so no error can surface to the caller. -/
theorem c2_no_value_too_large_error (pfx post : String) :
    ∀ fuel : Nat,
      (sqlLoop pfx post fuel [oversizedItem]).2 = false
      ∧ ((sqlLoop pfx post fuel [oversizedItem]).1.all
          (fun g => decide (g.1 = []))) = true := by
  intro fuel
  induction fuel with
  | zero => simp [sqlLoop]
  | succ n ih =>
    rw [sqlLoop_succ_cons, fillGroupAux_oversized]
    constructor
    · exact ih.1
    · rw [List.all_cons, Bool.and_eq_true]
      refine ⟨?_, ih.2⟩
      rw [emitGroup_nil_items]
      simp

def oversizedItem3 : String := String.mk (List.replicate 600 'Z')

set_option maxRecDepth 40000 in
theorem oversizedItem3_length : oversizedItem3.length = 600 := by decide

theorem fillGroupAux_oversized3 :
    fillGroupAux [oversizedItem3] [] 0 = ([], 0, [oversizedItem3]) := by
  unfold fillGroupAux
  rw [if_neg]
  rw [if_pos rfl, oversizedItem3_length]
  unfold MAX_BODY MAX_TOTAL RESERVED
  omega

/-- C3 evidence: the byte-budget loop does not terminate on a finite input
containing an item longer than the body budget: for every fuel bound the
exit condition is never reached (the inner loop consumes nothing and the
outer loop spins forever, emitting an empty batch per iteration). -/
theorem c3_partitioner_diverges (pfx post : String) :
    ∀ fuel : Nat, (sqlLoop pfx post fuel [oversizedItem3]).2 = false := by
  intro fuel
  induction fuel with
  | zero => simp [sqlLoop]
  | succ n ih =>
    rw [sqlLoop_succ_cons, fillGroupAux_oversized3]
    exact ih
